import Mathlib

/-
Verification development for the Sitemap_Builder repository (Go).

The Go package `parse` (src/unnamed/part_000) is shallowly embedded:

* HTML documents (golang.org/x/net/html `*html.Node`) become the inductive
  tree `HtmlNode`;
* HTTP fetching plus HTML parsing (`FetchAndParse`) becomes an abstract
  function `String → Option HtmlNode` (`none` models a fetch error, a
  non-OK status or a parse error);
* the Go standard-library helpers from `strings` and `net/url` that the
  package calls are modelled on `List Char` (one entry per character;
  the repository's inputs are ASCII, where Go's byte-wise operations and
  the character-wise model agree);
* `encoding/xml` marshalling of the fixed `Urlset`/`Url` structure is
  modelled by a small element tree and a renderer.

Machine integers: the only integer in the source is `maxDepth int`; it is
modelled as `Int` (no arithmetic that could overflow occurs: depths only
count BFS levels).
-/

/- ### Models of Go `strings` helpers (character-list level) -/

/- Characters treated as whitespace by the model of `strings.Fields` /
`strings.TrimSpace` (the ASCII part of Go's `unicode.IsSpace`; the
repository only meets ASCII whitespace). -/
def isSpaceGo (c : Char) : Bool :=
  c = ' ' || c = '\t' || c = '\n' || c = '\r' || c = '\x0b' || c = '\x0c'

/- Model of `strings.HasPrefix s pre`. -/
def hasPrefL (s pre : List Char) : Bool := pre.isPrefixOf s

/- Model of `strings.HasPrefix` on `String` (as used by `isInternalLink`
and `ExtractLinks`). -/
def hasPrefS (s pre : String) : Bool := pre.data.isPrefixOf s.data

/- Model of `strings.HasSuffix s suf`. -/
def hasSuffL (s suf : List Char) : Bool := suf.isSuffixOf s

/- Model of `strings.ContainsRune` / `strings.Contains s (string of c)`. -/
def containsChar (s : List Char) (c : Char) : Bool := s.contains c

/- Model of `strings.Split s (string of sep)`. -/
def splitAll (sep : Char) : List Char → List (List Char)
| [] => [[]]
| c :: cs =>
  if c = sep then [] :: splitAll sep cs
  else
    match splitAll sep cs with
    | [] => [[c]]
    | h :: t => (c :: h) :: t

/- Model of `strings.Join parts (string of sep)`. -/
def joinSep (sep : Char) : List (List Char) → List Char
| [] => []
| [s] => s
| s :: rest => s ++ sep :: joinSep sep rest

/- Model of `strings.TrimPrefix s "/"` (the only use in `net/url`'s
`resolvePath`). -/
def trimLeadSlash (s : List Char) : List Char :=
  match s with
  | '/' :: r => r
  | _ => s

/- Model of `strings.Fields`: split on whitespace runs, dropping empties. -/
def splitWS : List Char → List (List Char)
| [] => [[]]
| c :: cs =>
  if isSpaceGo c then [] :: splitWS cs
  else
    match splitWS cs with
    | [] => [[c]]
    | h :: t => (c :: h) :: t

/- Model of `strings.Join(strings.Fields s, " ")` as used by `extractText`. -/
def normalizeWS (s : List Char) : List Char :=
  joinSep ' ' ((splitWS s).filter (fun w => w ≠ []))

/- Model of `strings.TrimSpace`. -/
def trimSpace (s : List Char) : List Char :=
  ((s.dropWhile isSpaceGo).reverse.dropWhile isSpaceGo).reverse

/- ASCII lower-casing of one character, as done by `strings.ToLower` on
scheme names inside `url.Parse` (schemes are ASCII). -/
def toLowerAscii (c : Char) : Char :=
  if 'A' ≤ c ∧ c ≤ 'Z' then Char.ofNat (c.toNat + 32) else c

/- ### Model of Go `net/url` (the subset reached through `resolveURL`)

The model follows the structure of Go's `url.Parse`, `URL.String`,
`URL.IsAbs`, `URL.ResolveReference` and `resolvePath`.  Simplifications,
none of which is exercised by the repository's claims: percent-escaping is
not performed (paths/fragments are kept verbatim), userinfo (`user@host`)
makes the model parser fail instead of being parsed, and host/port
validation is not performed. -/

/- A parsed URL: the fields of Go's `url.URL` that the model tracks.
`opq` models `URL.Opaque`. -/
structure GoURL where
  scheme : List Char
  opq : List Char
  host : List Char
  path : List Char
  forceQuery : Bool
  rawQuery : List Char
  fragment : List Char
  omitHost : Bool
deriving DecidableEq, Repr

/- Scheme characters: `a-z A-Z` (first position) — Go `getScheme`. -/
def charIsAlpha (c : Char) : Bool :=
  ('a' ≤ c && c ≤ 'z') || ('A' ≤ c && c ≤ 'Z')

/- Scheme characters allowed after the first: digits and `+ - .`. -/
def charIsSchemeExtra (c : Char) : Bool :=
  ('0' ≤ c && c ≤ '9') || c = '+' || c = '-' || c = '.'

/- Model of `net/url`'s internal `split(s, sep, cutc)`. -/
def goSplit (s : List Char) (sep : Char) (cutc : Bool) : List Char × List Char :=
  match s with
  | [] => ([], [])
  | c :: cs =>
    if c = sep then ([], if cutc then cs else c :: cs)
    else
      let p := goSplit cs sep cutc
      (c :: p.1, p.2)

/- Model of `net/url`'s `getScheme`; `none` models the
"missing protocol scheme" error. `orig` is the whole input, returned
untouched when no scheme is present. -/
def getSchemeAux (orig : List Char) : List Char → List Char → Option (List Char × List Char)
| _, [] => some ([], orig)
| acc, c :: cs =>
  if charIsAlpha c then getSchemeAux orig (acc ++ [c]) cs
  else if charIsSchemeExtra c then
    if acc = [] then some ([], orig) else getSchemeAux orig (acc ++ [c]) cs
  else if c = ':' then
    if acc = [] then none else some (acc, cs)
  else some ([], orig)

def getScheme (s : List Char) : Option (List Char × List Char) :=
  getSchemeAux s [] s

/- Model of `net/url`'s `resolvePath` segment cleaning step. -/
def resolvePathStep (dst : List (List Char)) (e : List Char) : List (List Char) :=
  if e = ['.'] then dst
  else if e = ['.', '.'] then dst.dropLast
  else dst ++ [e]

/- Model of `net/url`'s `resolvePath base ref`. -/
def resolvePath (base r : List Char) : List Char :=
  let full :=
    if r = [] then base
    else if r.head? ≠ some '/' then (base.reverse.dropWhile (· ≠ '/')).reverse ++ r
    else r
  if full = [] then []
  else
    let src := splitAll '/' full
    let dst := src.foldl resolvePathStep []
    let dst :=
      if src.getLast? = some ['.'] || src.getLast? = some ['.', '.'] then dst ++ [[]]
      else dst
    '/' :: trimLeadSlash (joinSep '/' dst)

/- The authority/path part of `url.parse` after the query has been
stripped (the tail of Go's `parse(rawURL, false)`). -/
def parseAfterQuery (scheme rest1 : List Char) (forceQuery : Bool)
    (rawQuery : List Char) : Option GoURL :=
  if (scheme ≠ [] || !(hasPrefL rest1 ['/', '/', '/'])) && hasPrefL rest1 ['/', '/'] then
    let p := goSplit (rest1.drop 2) '/' false
    if containsChar p.1 '@' then none
    else
      some { scheme := scheme, opq := [], host := p.1, path := p.2,
             forceQuery := forceQuery, rawQuery := rawQuery, fragment := [],
             omitHost := false }
  else
    some { scheme := scheme, opq := [], host := [], path := rest1,
           forceQuery := forceQuery, rawQuery := rawQuery, fragment := [],
           omitHost := scheme ≠ [] && hasPrefL rest1 ['/'] }

/- Model of `net/url`'s internal `parse(rawURL, viaRequest := false)`
(fragment already split off). -/
def parseNoFrag (s : List Char) : Option GoURL :=
  match getScheme s with
  | none => none
  | some (sch, rest0) =>
    let scheme := sch.map toLowerAscii
    let q :=
      if hasSuffL rest0 ['?'] && !(containsChar rest0.dropLast '?') then
        (rest0.dropLast, true, ([] : List Char))
      else
        let p := goSplit rest0 '?' true
        (p.1, false, p.2)
    let rest1 := q.1
    let forceQuery := q.2.1
    let rawQuery := q.2.2
    if !(hasPrefL rest1 ['/']) then
      if scheme ≠ [] then
        some { scheme := scheme, opq := rest1, host := [], path := [],
               forceQuery := forceQuery, rawQuery := rawQuery, fragment := [],
               omitHost := false }
      else
        if containsChar (goSplit rest1 '/' false).1 ':' then none
        else parseAfterQuery scheme rest1 forceQuery rawQuery
    else parseAfterQuery scheme rest1 forceQuery rawQuery

/- Model of `url.Parse`: split the fragment, parse the rest. -/
def parseURLFull (raw : List Char) : Option GoURL :=
  let p := goSplit raw '#' true
  match parseNoFrag p.1 with
  | none => none
  | some u => some { u with fragment := p.2 }

/- Model of `url.URL.String()`. -/
def urlToString (u : GoURL) : List Char :=
  let schemePart := if u.scheme ≠ [] then u.scheme ++ [':'] else []
  let corePart :=
    if u.opq ≠ [] then u.opq
    else
      let authPart :=
        if u.scheme ≠ [] || u.host ≠ [] then
          if u.omitHost && u.host = [] then []
          else (if u.host ≠ [] || u.path ≠ [] then ['/', '/'] else []) ++ u.host
        else []
      let slashPart :=
        if u.path ≠ [] && u.path.head? ≠ some '/' && u.host ≠ [] then ['/'] else []
      let dotPart :=
        if schemePart = [] && authPart = [] && slashPart = [] then
          if containsChar (goSplit u.path '/' true).1 ':' then ['.', '/'] else []
        else []
      authPart ++ slashPart ++ dotPart ++ u.path
  let queryPart := if u.forceQuery || u.rawQuery ≠ [] then '?' :: u.rawQuery else []
  let fragPart := if u.fragment ≠ [] then '#' :: u.fragment else []
  schemePart ++ corePart ++ queryPart ++ fragPart

/- Model of `url.URL.ResolveReference(ref)` (receiver `u`). -/
def resolveReference (u ref : GoURL) : GoURL :=
  let url1 := if ref.scheme = [] then { ref with scheme := u.scheme } else ref
  if ref.scheme ≠ [] || ref.host ≠ [] then
    { url1 with path := resolvePath ref.path [] }
  else if ref.opq ≠ [] then
    { url1 with host := [], path := [] }
  else
    let url2 :=
      if ref.path = [] && !ref.forceQuery && ref.rawQuery = [] then
        { url1 with rawQuery := u.rawQuery,
                    fragment := if ref.fragment = [] then u.fragment else url1.fragment }
      else url1
    if ref.path = [] && u.opq ≠ [] then
      { url2 with opq := u.opq, host := [], path := [] }
    else
      { url2 with host := u.host, path := resolvePath u.path ref.path }

/- ### The repository's `parse` package -/

/- `Link` (src/unnamed/part_000, lines 19-22). -/
structure Link where
  Href : String
  Text : String
deriving DecidableEq, Repr

/- `resolveURL` (src/unnamed/part_000, lines 266-288): parse the href; on
error fall back to the raw href; if absolute, re-serialize it; otherwise
resolve it against the parsed base (again falling back on error). -/
def resolveURL (base href : String) : String :=
  match parseURLFull href.data with
  | none => href
  | some hrefURL =>
    if hrefURL.scheme ≠ [] then ⟨urlToString hrefURL⟩
    else
      match parseURLFull base.data with
      | none => href
      | some baseURL => ⟨urlToString (resolveReference baseURL hrefURL)⟩

/- `isInternalLink` (src/unnamed/part_000, lines 176-180). -/
def isInternalLink (link baseDomain : String) : Bool :=
  hasPrefS link "/" || hasPrefS link baseDomain

/- Node types of golang.org/x/net/html (`html.NodeType`). -/
inductive NType where
| errorNode
| text
| document
| element
| comment
| doctype
deriving DecidableEq, Repr

/- A DOM tree node: `html.Node` with `Type`, `DataAtom` (modelled as the
tag-name string, `"a"` for anchors), `Data`, `Attr` (key/value pairs;
namespaces are not used by the repository) and the child list. -/
inductive HtmlNode where
| mk (ntype : NType) (dataAtom : String) (data : String)
     (attrs : List (String × String)) (children : List HtmlNode)

def HtmlNode.ntype : HtmlNode → NType
| .mk t _ _ _ _ => t

def HtmlNode.children : HtmlNode → List HtmlNode
| .mk _ _ _ _ c => c

/- `extractText` (src/unnamed/part_000, lines 91-110): text nodes yield
their data, non-element nodes yield nothing, element nodes concatenate
their children's text and normalize whitespace. -/
mutual

def extractText : HtmlNode → List Char
| .mk t _ data _ children =>
  if t = NType.text then data.data
  else if t = NType.element then normalizeWS (extractTextCat children)
  else []

def extractTextCat : List HtmlNode → List Char
| [] => []
| c :: cs => extractText c ++ extractTextCat cs

end

/- The `for _, attr := range node.Attr` loop of `ExtractLinks`
(src/unnamed/part_000, lines 133-151): scan the attributes in order and
commit (`break`) to the first one whose key is `"href"` AND whose value
passes `isInternalLink`; attributes failing the conjunction are skipped. -/
def findInternalHref (baseDomain : String) : List (String × String) → Option String
| [] => none
| (k, v) :: rest =>
  if k = "href" ∧ isInternalLink v baseDomain then some v
  else findInternalHref baseDomain rest

/- One anchor's contribution inside the `walk` closure of `ExtractLinks`:
the state is `(seen, links)`; Go's `seen` map is modelled as the list of
keys in insertion order. -/
def anchorStep (baseDomain : String) (n : HtmlNode)
    (st : List String × List Link) : List String × List Link :=
  match n with
  | .mk t da _ attrs _ =>
    if t = NType.element ∧ da = "a" then
      match findInternalHref baseDomain attrs with
      | some v =>
        let href := if hasPrefS v "/" then resolveURL baseDomain v else v
        if href ∈ st.1 then st
        else (st.1 ++ [href], st.2 ++ [⟨href, ⟨trimSpace (extractText n)⟩⟩])
      | none => st
    else st

/- The recursive `walk` of `ExtractLinks` (src/unnamed/part_000, lines
128-159): process the node itself, then all children left to right. -/
mutual

def walkNode (baseDomain : String) : HtmlNode → (List String × List Link) → List String × List Link
| .mk t da d attrs children, st =>
  walkList baseDomain children (anchorStep baseDomain (.mk t da d attrs children) st)

def walkList (baseDomain : String) : List HtmlNode → (List String × List Link) → List String × List Link
| [], st => st
| c :: cs, st => walkList baseDomain cs (walkNode baseDomain c st)

end

/- `ExtractLinks` (src/unnamed/part_000, lines 122-164). -/
def ExtractLinks (n : HtmlNode) (baseDomain : String) : List Link :=
  (walkNode baseDomain n ([], [])).2

/- ### The comparison extractor for the dedup claim

`rawNode`/`rawList` collect, in document (depth-first) order, one entry
per anchor that passes the internal-link filter, WITHOUT the `seen`
dedup — the "two anchors sharing the same resolved href" reading of the
spec.  `dedupInto` then keeps first occurrences by href. -/
mutual

def rawNode (baseDomain : String) : HtmlNode → List Link
| .mk t da d attrs children =>
  (if t = NType.element ∧ da = "a" then
    match findInternalHref baseDomain attrs with
    | some v =>
      let href := if hasPrefS v "/" then resolveURL baseDomain v else v
      [⟨href, ⟨trimSpace (extractText (.mk t da d attrs children))⟩⟩]
    | none => []
  else []) ++ rawList baseDomain children

def rawList (baseDomain : String) : List HtmlNode → List Link
| [] => []
| c :: cs => rawNode baseDomain c ++ rawList baseDomain cs

end

/- First-occurrence-wins dedup by href, folded into an accumulator. -/
def dedupInto (acc : List Link) : List Link → List Link
| [] => acc
| l :: ls =>
  if l.Href ∈ acc.map Link.Href then dedupInto acc ls
  else dedupInto (acc ++ [l]) ls

/- ### `CrawlBFS` (src/unnamed/part_000, lines 198-254)

`fetch : String → Option HtmlNode` abstracts `FetchAndParse` together
with the HTTP client: `none` is any fetch or parse failure.  The local
`Node` struct becomes `CNode`.  The loop is defined with explicit fuel;
`crawlLoop_isSome_of_fuel` below proves the fuel chosen by
`CrawlBFSTrace` always suffices, so the `none` result of `CrawlBFS`
happens exactly on the empty seed (the Go error return).  The trace
component records, in order, every URL passed to `fetch` (for the
zero-network-calls claims); it does not influence control flow. -/

structure CNode where
  link : Link
  depth : Nat
deriving DecidableEq, Repr

/- The `for _, neighbor := range neighbors` loop: enqueue each neighbor
whose href is not yet visited, marking it visited. -/
def enqueueNew (d : Nat) : List Link → List CNode → List String → List CNode × List String
| [], queue, visited => (queue, visited)
| n :: ns, queue, visited =>
  if n.Href ∈ visited then enqueueNew d ns queue visited
  else enqueueNew d ns (queue ++ [⟨n, d + 1⟩]) (visited ++ [n.Href])

/- The BFS main loop (`for len(queue) > 0`), with fuel. -/
def crawlLoop (fetch : String → Option HtmlNode) (maxDepth : Int) :
    Nat → List CNode → List String → List Link → List String →
    Option (List Link) × List String
| _, [], _, result, fetched => (some result, fetched)
| 0, _ :: _, _, _, fetched => (none, fetched)
| fuel + 1, cur :: rest, visited, result, fetched =>
  let result1 := result ++ [cur.link]
  if (cur.depth : Int) ≥ maxDepth then
    crawlLoop fetch maxDepth fuel rest visited result1 fetched
  else
    let fetched1 := fetched ++ [cur.link.Href]
    match fetch cur.link.Href with
    | none => crawlLoop fetch maxDepth fuel rest visited result1 fetched1
    | some doc =>
      let neighbors := ExtractLinks doc cur.link.Href
      let p := enqueueNew cur.depth neighbors rest visited
      crawlLoop fetch maxDepth fuel p.1 p.2 result1 fetched1

/- An upper bound on the number of loop iterations a node dequeued with
`r` remaining levels can cause (itself plus the full expansion tree). -/
def iterBound (fetch : String → Option HtmlNode) : Nat → Link → Nat
| 0, _ => 1
| r + 1, link =>
  1 + (match fetch link.Href with
       | none => 0
       | some doc => ((ExtractLinks doc link.Href).map (iterBound fetch r)).sum)

/- The total iteration budget of a queue: the sum of the per-node
iteration bounds, weighting each node by its remaining depth budget. -/
def queueBound (fetch : String → Option HtmlNode) (maxDepth : Int)
    (queue : List CNode) : Nat :=
  (queue.map (fun n => iterBound fetch (maxDepth - (n.depth : Int)).toNat n.link)).sum

/- `CrawlBFS` with the fetch trace: `(none, [])` models the
"no links to traverse" error return (and, unreachably, fuel exhaustion,
ruled out by `crawlLoop_isSome_of_fuel`). -/
def CrawlBFSTrace (fetch : String → Option HtmlNode) (links : List Link)
    (maxDepth : Int) : Option (List Link) × List String :=
  match links with
  | [] => (none, [])
  | l0 :: _ =>
    crawlLoop fetch maxDepth (iterBound fetch maxDepth.toNat l0) [⟨l0, 0⟩] [l0.Href] [] []

/- `CrawlBFS` proper: the returned link list (`none` = error). -/
def CrawlBFS (fetch : String → Option HtmlNode) (links : List Link)
    (maxDepth : Int) : Option (List Link) :=
  (CrawlBFSTrace fetch links maxDepth).1

/- ### `EncodeXML` (src/unnamed/part_000, lines 303-325) -/

/- `Url` (src/unnamed/part_000, lines 34-36). -/
structure Url where
  Loc : String
deriving DecidableEq, Repr

/- `Urlset` (src/unnamed/part_000, lines 26-30); the `XMLName` tag is the
fixed element name "urlset" used by the renderer. -/
structure Urlset where
  Xmlns : String
  Urls : List Url
deriving DecidableEq, Repr

/- A small XML element tree, the shape `encoding/xml` produces for the
`Urlset` structure. -/
inductive XNode where
| elem (name : String) (attrs : List (String × String)) (children : List XNode)
| text (s : String)

/- XML escaping of one character, following Go `xml.EscapeText`. -/
def xmlEscapeChar (c : Char) : List Char :=
  if c = '&' then "&amp;".data
  else if c = '<' then "&lt;".data
  else if c = '>' then "&gt;".data
  else if c = '\'' then "&#39;".data
  else if c = '"' then "&#34;".data
  else if c = '\t' then "&#x9;".data
  else if c = '\n' then "&#xA;".data
  else if c = '\r' then "&#xD;".data
  else [c]

def xmlEscape (s : String) : String :=
  ⟨s.data.flatMap xmlEscapeChar⟩

/- Renderer modelling `xml.MarshalIndent(v, "", ind)` on the `Urlset`
shape: an element with element children puts each child on its own
indented line; a single text child is rendered inline; an empty element
renders as an immediately closed pair of tags. -/
mutual

def renderXNode (cur ind : String) : XNode → String
| .text s => xmlEscape s
| .elem name attrs children =>
  let openTag :=
    "<" ++ name ++
    String.join (attrs.map (fun a => " " ++ a.1 ++ "=\"" ++ xmlEscape a.2 ++ "\"")) ++ ">"
  match children with
  | [] => openTag ++ "</" ++ name ++ ">"
  | [.text s] => openTag ++ xmlEscape s ++ "</" ++ name ++ ">"
  | _ =>
    openTag ++ renderXList (cur ++ ind) ind children ++ "\n" ++ cur ++ "</" ++ name ++ ">"

def renderXList (cur ind : String) : List XNode → String
| [] => ""
| c :: cs => "\n" ++ cur ++ renderXNode cur ind c ++ renderXList cur ind cs

end

/- The element tree `encoding/xml` derives from the tagged `Urlset`
structure: root `urlset` with the `xmlns` attribute, one `url` child per
entry, each holding a `loc` element with the location text. -/
def urlsetToXNode (u : Urlset) : XNode :=
  .elem "urlset" [("xmlns", u.Xmlns)]
    (u.Urls.map (fun url => .elem "url" [] [.elem "loc" [] [.text url.Loc]]))

/- `xml.Header`. -/
def xmlHeader : String := "<?xml version=\"1.0\" encoding=\"UTF-8\"?>\n"

/- Model of `xml.MarshalIndent(urlset, "", "  ")`.  Go's marshaller can
only fail on unsupported field types, never on this string-only
structure, so the model is total. -/
def marshalIndentUrlset (u : Urlset) : String :=
  renderXNode "" "  " (urlsetToXNode u)

/- `EncodeXML` (src/unnamed/part_000, lines 303-325). -/
def EncodeXML (links : List Link) : Except String String :=
  let urls := links.map (fun link => Url.mk link.Href)
  let urlset : Urlset := ⟨"http://www.sitemaps.org/schemas/sitemap/0.9", urls⟩
  Except.ok (xmlHeader ++ marshalIndentUrlset urlset)

/- ### The synthetic cycle graph for the depth-bound claim

`N` pages at paths `/x`, `/xx`, … (root-relative URLs, so the crawl's
prefix test and `resolveURL` are exercised); page `i` contains a single
anchor to page `(i+1) % N`, forming a cycle. -/

def pagePath (i : Nat) : String := ⟨'/' :: List.replicate (i + 1) 'x'⟩

def cycLink (i : Nat) : Link := ⟨pagePath i, ""⟩

def cycDoc (N i : Nat) : HtmlNode :=
  .mk .element "a" "a" [("href", pagePath ((i + 1) % N))] []

/- The fetch oracle of the cycle graph: page `i`'s path has `i + 2`
characters, which recovers the index. -/
def cycFetch (N : Nat) (u : String) : Option HtmlNode :=
  let i := u.data.length - 2
  if u = pagePath i ∧ i < N then some (cycDoc N i) else none

/- ### Helper lemmas and claim theorems -/

theorem stringMk_nil : String.mk [] = "" := rfl

/-- Claim C3: for every non-empty seed list, `CrawlBFS` returns the same
result as on the single-element list holding the first seed entry: only
`links[0]` roots the traversal, the other seed elements are ignored. -/
theorem crawlBFS_only_first_seed (fetch : String → Option HtmlNode) (maxDepth : Int) (l0 : Link) (rest : List Link) :
  CrawlBFS fetch (l0 :: rest) maxDepth = CrawlBFS fetch [l0] maxDepth := rfl

/-- Claim C4: with `maxDepth = 0` and any non-empty seed, `CrawlBFS`
performs no fetch at all (empty trace) and the result is exactly the
one-element sequence holding the first seed link. -/
theorem crawlBFS_depth_zero_no_fetch (fetch : String → Option HtmlNode) (l0 : Link) (rest : List Link) :
  CrawlBFSTrace fetch (l0 :: rest) 0 = (some [l0], []) := rfl

/-- Claim C6, counterexample: `"MAILTO:Foo"` parses as an absolute URL
(scheme `mailto` after Go's lower-casing), yet
`resolveURL base "MAILTO:Foo"` returns the re-serialized `"mailto:Foo"`,
not the href unchanged — the claim as stated is false. -/
theorem resolveURL_absolute_not_verbatim :
  parseURLFull "MAILTO:Foo".data =
    some ⟨"mailto".data, "Foo".data, [], [], false, [], [], false⟩ ∧
  resolveURL "https://a.com" "MAILTO:Foo" = "mailto:Foo" ∧
  ("mailto:Foo" : String) ≠ "MAILTO:Foo" := by
  refine ⟨by decide, by decide, by decide⟩

/-- Claim C6, amended: for every base and every href that parses as an
absolute URL (non-empty scheme), `resolveURL` returns the canonical
re-serialization of the href; whenever the href is already canonical
(re-serializing its parse yields it back), `resolveURL base href = href`. -/
theorem resolveURL_abs_canonical (base href : String) (u : GoURL)
    (hp : parseURLFull href.data = some u) (habs : u.scheme ≠ [])
    (hcanon : String.mk (urlToString u) = href) :
    resolveURL base href = href := by
  unfold resolveURL
  rw [hp]
  simp only [if_pos habs]
  exact hcanon

theorem resolveURL_abs_canonical_witness :
    resolveURL "https://a.com" "mailto:Foo" = "mailto:Foo" :=
  resolveURL_abs_canonical "https://a.com" "mailto:Foo"
    ⟨"mailto".data, "Foo".data, [], [], false, [], [], false⟩
    (by decide) (by decide) (by decide)

/-- Claim C10: for every list of links (the empty list included),
`EncodeXML` succeeds, returning the XML declaration followed by the
rendering of a `urlset` root element that carries the fixed sitemap
namespace attribute and has exactly one `url` child with a `loc` text
element per input link, in input order, with the link text dropped. -/
theorem encodeXML_sitemap_shape (links : List Link) :
    EncodeXML links =
      Except.ok (xmlHeader ++ marshalIndentUrlset
        ⟨"http://www.sitemaps.org/schemas/sitemap/0.9",
         links.map (fun l => ⟨l.Href⟩)⟩) ∧
    urlsetToXNode ⟨"http://www.sitemaps.org/schemas/sitemap/0.9",
        links.map (fun l => ⟨l.Href⟩)⟩ =
      XNode.elem "urlset" [("xmlns", "http://www.sitemaps.org/schemas/sitemap/0.9")]
        (links.map (fun l => XNode.elem "url" [] [XNode.elem "loc" [] [XNode.text l.Href]])) ∧
    (∃ body, EncodeXML links = Except.ok (xmlHeader ++ body)) := by
  refine ⟨rfl, ?_, ⟨_, rfl⟩⟩
  simp [urlsetToXNode, List.map_map]

/-- Claim C7, counterexample: on an anchor whose first `href` attribute is
external and whose second (duplicate) `href` attribute is internal,
`ExtractLinks` output differs from the same anchor with only the first
`href`; the later duplicate contributes the link `https://a.com/y` — so
"only the first occurrence of an href attribute is inspected" is false. -/
theorem extractLinks_later_href_attr_contributes :
    ExtractLinks
        (.mk .element "a" "a" [("href", "https://other.com/x"), ("href", "/y")] [])
        "https://a.com"
      ≠ ExtractLinks (.mk .element "a" "a" [("href", "https://other.com/x")] [])
        "https://a.com" ∧
    ExtractLinks
        (.mk .element "a" "a" [("href", "https://other.com/x"), ("href", "/y")] [])
        "https://a.com" = [⟨"https://a.com/y", ""⟩] ∧
    isInternalLink "https://other.com/x" "https://a.com" = false := by
  refine ⟨by decide, by decide, by decide⟩

theorem findInternalHref_eq_none_of_no_href (base : String) :
    ∀ attrs : List (String × String), (∀ p ∈ attrs, p.1 ≠ "href") →
    findInternalHref base attrs = none := by
  intro attrs h
  induction attrs with
  | nil => rfl
  | cons a rest ih =>
    obtain ⟨k, v⟩ := a
    have hk : k ≠ "href" := h (k, v) (by simp)
    simp only [findInternalHref]
    rw [if_neg (by simp [hk])]
    exact ih (fun p hp => h p (by simp [hp]))

/-- Claim C9: an href passes the internal-link filter iff it starts with
`"/"` or has `baseDomain` as a literal string prefix; a single-anchor
page keeps its href exactly under that test (root-relative hrefs being
resolved against the base); concretely `https://other.com/x` is dropped
for base `https://a.com` while `/x` is kept as `https://a.com/x`. -/
theorem extractLinks_internal_filter :
    (∀ v base, isInternalLink v base = (hasPrefS v "/" || hasPrefS v base)) ∧
    (∀ v base, ExtractLinks (.mk .element "a" "a" [("href", v)] []) base =
       if isInternalLink v base then
         [⟨(if hasPrefS v "/" then resolveURL base v else v), ""⟩]
       else []) ∧
    ExtractLinks (.mk .element "a" "a" [("href", "https://other.com/x")] [])
        "https://a.com" = [] ∧
    ExtractLinks (.mk .element "a" "a" [("href", "/x")] []) "https://a.com"
      = [⟨"https://a.com/x", ""⟩] := by
  refine ⟨fun v base => rfl, fun v base => ?_, by decide, by decide⟩
  by_cases h : isInternalLink v base = true
  · simp [ExtractLinks, walkNode, walkList, anchorStep, findInternalHref, h,
      extractText, extractTextCat, normalizeWS, splitWS, joinSep, trimSpace]
  · simp [ExtractLinks, walkNode, walkList, anchorStep, findInternalHref, h]

/-- Claim C7, amended: the attribute scan of `ExtractLinks` commits to the
first attribute whose key is `href` AND whose value passes the
internal-link filter (the Go `break` sits inside the conjunction), so
earlier href attributes failing the filter are skipped rather than ending
the scan; an anchor with no href attribute contributes nothing. -/
theorem extractLinks_first_internal_href :
    (∀ base attrs, findInternalHref base attrs =
       (attrs.find? (fun a => a.1 == "href" && isInternalLink a.2 base)).map Prod.snd) ∧
    (∀ (base d : String) attrs children st, (∀ p ∈ attrs, p.1 ≠ "href") →
       walkNode base (.mk .element "a" d attrs children) st
         = walkList base children st) := by
  constructor
  · intro base attrs
    induction attrs with
    | nil => rfl
    | cons a rest ih =>
      obtain ⟨k, v⟩ := a
      cases hb : (k == "href" && isInternalLink v base) with
      | true =>
        simp only [Bool.and_eq_true, beq_iff_eq] at hb
        simp [findInternalHref, List.find?_cons, hb.1, hb.2]
      | false =>
        have hn : ¬ (k = "href" ∧ isInternalLink v base = true) := by
          intro hc
          simp [hc.1, hc.2] at hb
        simp only [findInternalHref]
        rw [if_neg hn, List.find?_cons, hb]
        exact ih
  · intro base d attrs children st h
    simp only [walkNode, anchorStep,
      findInternalHref_eq_none_of_no_href base attrs h]
    simp

theorem extractLinks_first_internal_href_witness :
    walkNode "b" (.mk .element "a" "a" [("id", "z")] []) ([], []) = walkList "b" [] ([], []) :=
  extractLinks_first_internal_href.2 "b" "a" [("id", "z")] [] ([], []) (by decide)

theorem dedupInto_append (xs ys : List Link) :
    ∀ acc, dedupInto acc (xs ++ ys) = dedupInto (dedupInto acc xs) ys := by
  induction xs with
  | nil => intro acc; rfl
  | cons l ls ih =>
    intro acc
    simp only [List.cons_append, dedupInto]
    by_cases h : l.Href ∈ acc.map Link.Href
    · simp [h, ih]
    · simp [h, ih]

mutual

theorem walkNode_dedup (base : String) :
    ∀ (n : HtmlNode) (acc : List Link),
    walkNode base n (acc.map Link.Href, acc)
      = ((dedupInto acc (rawNode base n)).map Link.Href, dedupInto acc (rawNode base n))
  | .mk t da d attrs children, acc => by
    simp only [walkNode, rawNode, anchorStep]
    by_cases ha : t = NType.element ∧ da = "a"
    · simp only [if_pos ha]
      cases hf : findInternalHref base attrs with
      | none =>
        simp only [dedupInto_append]
        simpa using walkList_dedup base children acc
      | some v =>
        by_cases hm :
            (if hasPrefS v "/" then resolveURL base v else v) ∈ acc.map Link.Href
        · simp only [hm, if_pos, dedupInto_append, dedupInto,
            List.map_append]
          simpa [dedupInto, hm] using walkList_dedup base children acc
        · simp only [hm, if_neg, dedupInto_append, dedupInto]
          have := walkList_dedup base children
            (acc ++ [⟨if hasPrefS v "/" then resolveURL base v else v,
                      ⟨trimSpace (extractText (.mk t da d attrs children))⟩⟩])
          simpa [dedupInto, hm] using this
    · simp only [if_neg ha]
      simpa using walkList_dedup base children acc

theorem walkList_dedup (base : String) :
    ∀ (l : List HtmlNode) (acc : List Link),
    walkList base l (acc.map Link.Href, acc)
      = ((dedupInto acc (rawList base l)).map Link.Href, dedupInto acc (rawList base l))
  | [], acc => by simp [walkList, rawList, dedupInto]
  | c :: cs, acc => by
    simp only [walkList, rawList, dedupInto_append]
    rw [walkNode_dedup base c acc]
    exact walkList_dedup base cs (dedupInto acc (rawNode base c))

end

theorem dedupInto_sub_map :
    ∀ (ls acc : List Link) (h : String), h ∈ acc.map Link.Href →
    h ∈ (dedupInto acc ls).map Link.Href := by
  intro ls
  induction ls with
  | nil => intro acc h hh; exact hh
  | cons l rest ih =>
    intro acc h hh
    simp only [dedupInto]
    by_cases hm : l.Href ∈ acc.map Link.Href
    · simp only [if_pos hm]; exact ih acc h hh
    · simp only [if_neg hm]
      exact ih (acc ++ [l]) h (by simp [hh])

theorem dedupInto_nodup :
    ∀ (ls acc : List Link), (acc.map Link.Href).Nodup →
    ((dedupInto acc ls).map Link.Href).Nodup := by
  intro ls
  induction ls with
  | nil => intro acc h; exact h
  | cons l rest ih =>
    intro acc h
    simp only [dedupInto]
    by_cases hm : l.Href ∈ acc.map Link.Href
    · simp only [if_pos hm]; exact ih acc h
    · simp only [if_neg hm]
      exact ih (acc ++ [l]) (by simp [List.nodup_append, h, hm])

theorem dedupInto_find :
    ∀ (ls acc : List Link) (l : Link), l ∈ dedupInto acc ls →
    l ∈ acc ∨ (l.Href ∉ acc.map Link.Href ∧
      ls.find? (fun x => x.Href == l.Href) = some l) := by
  intro ls
  induction ls with
  | nil => intro acc l hl; exact Or.inl hl
  | cons y rest ih =>
    intro acc l hl
    simp only [dedupInto] at hl
    by_cases hm : y.Href ∈ acc.map Link.Href
    · rw [if_pos hm] at hl
      rcases ih acc l hl with h | h
      · exact Or.inl h
      · refine Or.inr ⟨h.1, ?_⟩
        have hne : (y.Href == l.Href) = false := by
          by_contra hc
          have : y.Href = l.Href := by
            have := eq_true_of_ne_false hc
            simpa using this
          exact h.1 (this ▸ hm)
        rw [List.find?_cons, hne]
        exact h.2
    · rw [if_neg hm] at hl
      rcases ih (acc ++ [y]) l hl with h | h
      · rcases List.mem_append.1 h with h | h
        · exact Or.inl h
        · have : l = y := by simpa using h
          subst this
          exact Or.inr ⟨hm, by simp [List.find?_cons]⟩
      · have hl1 : l.Href ∉ acc.map Link.Href := by
          intro hc; exact h.1 (by simp [hc])
        have hne : (y.Href == l.Href) = false := by
          by_contra hc
          have hy : y.Href = l.Href := by
            have := eq_true_of_ne_false hc
            simpa using this
          exact h.1 (by simp [hy])
        refine Or.inr ⟨hl1, ?_⟩
        rw [List.find?_cons, hne]
        exact h.2

theorem dedupInto_complete :
    ∀ (ls acc : List Link) (x : Link), x ∈ ls →
    x.Href ∈ (dedupInto acc ls).map Link.Href := by
  intro ls
  induction ls with
  | nil => intro acc x hx; cases hx
  | cons y rest ih =>
    intro acc x hx
    simp only [dedupInto]
    rcases List.mem_cons.1 hx with h | h
    · subst h
      by_cases hm : x.Href ∈ acc.map Link.Href
      · simp only [if_pos hm]; exact dedupInto_sub_map rest acc x.Href hm
      · simp only [if_neg hm]
        exact dedupInto_sub_map rest (acc ++ [x]) x.Href (by simp)
    · by_cases hm : y.Href ∈ acc.map Link.Href
      · simp only [if_pos hm]; exact ih acc x h
      · simp only [if_neg hm]; exact ih (acc ++ [y]) x h

/-- Claim C8: `ExtractLinks` equals the first-occurrence-wins dedup (by
resolved href) of the raw document-order anchor list: output hrefs are
pairwise distinct, every output link is the first raw occurrence of its
href (hence carries the first anchor's text), and every raw anchor's
href is represented in the output. -/
theorem extractLinks_page_dedup (n : HtmlNode) (base : String) :
    ExtractLinks n base = dedupInto [] (rawNode base n) ∧
    ((ExtractLinks n base).map Link.Href).Nodup ∧
    (∀ l ∈ ExtractLinks n base,
       (rawNode base n).find? (fun x => x.Href == l.Href) = some l) ∧
    (∀ x ∈ rawNode base n, x.Href ∈ (ExtractLinks n base).map Link.Href) := by
  have h0 : ExtractLinks n base = dedupInto [] (rawNode base n) := by
    unfold ExtractLinks
    rw [show (([], []) : List String × List Link)
          = (([] : List Link).map Link.Href, ([] : List Link)) by rfl]
    rw [walkNode_dedup base n []]
  refine ⟨h0, ?_, ?_, ?_⟩
  · rw [h0]; exact dedupInto_nodup _ _ (by simp)
  · intro l hl
    rw [h0] at hl
    rcases dedupInto_find _ _ _ hl with h | h
    · cases h
    · exact h.2
  · intro x hx
    rw [h0]
    exact dedupInto_complete _ _ _ hx

theorem extractLinks_page_dedup_witness :
    (rawNode "https://a.com"
        (.mk .document "" "" []
          [.mk .element "a" "a" [("href", "/p")] [.mk .text "" "first" [] []],
           .mk .element "a" "a" [("href", "/p")] [.mk .text "" "second" [] []]])).find?
      (fun x => x.Href == "https://a.com/p") = some ⟨"https://a.com/p", "first"⟩ :=
  (extractLinks_page_dedup
    (.mk .document "" "" []
      [.mk .element "a" "a" [("href", "/p")] [.mk .text "" "first" [] []],
       .mk .element "a" "a" [("href", "/p")] [.mk .text "" "second" [] []]])
    "https://a.com").2.2.1 ⟨"https://a.com/p", "first"⟩ (by decide)

theorem iterBound_pos (fetch : String → Option HtmlNode) (r : Nat) (l : Link) :
    1 ≤ iterBound fetch r l := by
  cases r <;> simp [iterBound]

theorem queueBound_nil (fetch : String → Option HtmlNode) (maxDepth : Int) :
    queueBound fetch maxDepth [] = 0 := rfl

theorem queueBound_cons (fetch : String → Option HtmlNode) (maxDepth : Int)
    (cur : CNode) (rest : List CNode) :
    queueBound fetch maxDepth (cur :: rest)
      = iterBound fetch (maxDepth - (cur.depth : Int)).toNat cur.link
        + queueBound fetch maxDepth rest := by
  simp [queueBound]

theorem queueBound_append (fetch : String → Option HtmlNode) (maxDepth : Int)
    (q1 q2 : List CNode) :
    queueBound fetch maxDepth (q1 ++ q2)
      = queueBound fetch maxDepth q1 + queueBound fetch maxDepth q2 := by
  simp [queueBound]

theorem enqueueNew_queueBound (fetch : String → Option HtmlNode) (maxDepth : Int)
    (d : Nat) :
    ∀ (ns : List Link) (queue : List CNode) (visited : List String),
    queueBound fetch maxDepth (enqueueNew d ns queue visited).1
      ≤ queueBound fetch maxDepth queue
        + ((ns.map (fun l => iterBound fetch (maxDepth - ((d + 1 : Nat) : Int)).toNat l)).sum) := by
  intro ns
  induction ns with
  | nil => intro queue visited; simp [enqueueNew]
  | cons n rest ih =>
    intro queue visited
    simp only [enqueueNew]
    by_cases hm : n.Href ∈ visited
    · rw [if_pos hm]
      have := ih queue visited
      simp only [List.map_cons, List.sum_cons]
      omega
    · rw [if_neg hm]
      have := ih (queue ++ [⟨n, d + 1⟩]) (visited ++ [n.Href])
      rw [queueBound_append] at this
      simp only [queueBound_cons, queueBound_nil, List.map_cons, List.sum_cons] at this ⊢
      omega

theorem crawlLoop_isSome_of_fuel (fetch : String → Option HtmlNode) (maxDepth : Int) :
    ∀ (fuel : Nat) (queue : List CNode) (visited : List String)
      (result : List Link) (fetched : List String),
    queueBound fetch maxDepth queue ≤ fuel →
    ((crawlLoop fetch maxDepth fuel queue visited result fetched).1).isSome = true := by
  intro fuel
  induction fuel with
  | zero =>
    intro queue visited result fetched h
    cases queue with
    | nil => simp [crawlLoop]
    | cons cur rest =>
      exfalso
      have h1 := iterBound_pos fetch (maxDepth - (cur.depth : Int)).toNat cur.link
      rw [queueBound_cons] at h
      omega
  | succ f ih =>
    intro queue visited result fetched h
    cases queue with
    | nil => simp [crawlLoop]
    | cons cur rest =>
      have h1 := iterBound_pos fetch (maxDepth - (cur.depth : Int)).toNat cur.link
      rw [queueBound_cons] at h
      simp only [crawlLoop]
      by_cases hd : (cur.depth : Int) ≥ maxDepth
      · rw [if_pos hd]
        exact ih rest visited _ fetched (by omega)
      · rw [if_neg hd]
        cases hf : fetch cur.link.Href with
        | none =>
          exact ih rest visited _ _ (by omega)
        | some doc =>
          simp only []
          apply ih
          have hr : (maxDepth - (cur.depth : Int)).toNat
              = (maxDepth - ((cur.depth + 1 : Nat) : Int)).toNat + 1 := by
            push_cast
            omega
          have hcur : iterBound fetch (maxDepth - (cur.depth : Int)).toNat cur.link
              = 1 + ((ExtractLinks doc cur.link.Href).map
                  (fun l => iterBound fetch (maxDepth - ((cur.depth + 1 : Nat) : Int)).toNat l)).sum := by
            rw [hr]
            simp [iterBound, hf]
          have hsum := enqueueNew_queueBound fetch maxDepth cur.depth
            (ExtractLinks doc cur.link.Href) rest visited
          omega

theorem crawlBFS_cons_isSome (fetch : String → Option HtmlNode) (l0 : Link)
    (rest : List Link) (maxDepth : Int) :
    (CrawlBFS fetch (l0 :: rest) maxDepth).isSome = true := by
  unfold CrawlBFS CrawlBFSTrace
  apply crawlLoop_isSome_of_fuel
  have : queueBound fetch maxDepth [⟨l0, 0⟩] = iterBound fetch maxDepth.toNat l0 := by
    rw [queueBound_cons, queueBound_nil]
    norm_num
  omega

theorem enqueueNew_inv (d : Nat) (R : List String) :
    ∀ (ns : List Link) (queue : List CNode) (visited : List String),
    ((queue.map (fun n => n.link.Href) ++ R).Nodup) →
    (∀ h ∈ queue.map (fun n => n.link.Href) ++ R, h ∈ visited) →
    (((enqueueNew d ns queue visited).1.map (fun n => n.link.Href) ++ R).Nodup) ∧
    (∀ h ∈ (enqueueNew d ns queue visited).1.map (fun n => n.link.Href) ++ R,
       h ∈ (enqueueNew d ns queue visited).2) := by
  intro ns
  induction ns with
  | nil =>
    intro queue visited h1 h2
    exact ⟨h1, h2⟩
  | cons n rest ih =>
    intro queue visited h1 h2
    simp only [enqueueNew]
    by_cases hm : n.Href ∈ visited
    · rw [if_pos hm]
      exact ih queue visited h1 h2
    · rw [if_neg hm]
      have hn : n.Href ∉ queue.map (fun n => n.link.Href) ++ R := by
        intro hc
        exact hm (h2 _ hc)
      have hperm :
          ((queue ++ [(CNode.mk n (d + 1))]).map (fun m => m.link.Href) ++ R).Perm
            (n.Href :: (queue.map (fun m => m.link.Href) ++ R)) := by
        simp only [List.map_append, List.map_cons, List.map_nil, List.append_assoc]
        exact List.perm_middle
      apply ih (queue ++ [CNode.mk n (d + 1)]) (visited ++ [n.Href])
      · apply hperm.symm.nodup
        rw [List.nodup_cons]
        exact ⟨hn, h1⟩
      · intro h hh
        rcases List.mem_cons.1 ((hperm.mem_iff).1 hh) with h' | h'
        · simp [h']
        · have := h2 h h'
          simp [this]

theorem crawlLoop_nodup (fetch : String → Option HtmlNode) (maxDepth : Int) :
    ∀ (fuel : Nat) (queue : List CNode) (visited : List String)
      (result : List Link) (fetched : List String) (out : List Link),
    ((queue.map (fun n => n.link.Href) ++ result.map Link.Href).Nodup) →
    (∀ h ∈ queue.map (fun n => n.link.Href) ++ result.map Link.Href, h ∈ visited) →
    (crawlLoop fetch maxDepth fuel queue visited result fetched).1 = some out →
    (out.map Link.Href).Nodup := by
  intro fuel
  induction fuel with
  | zero =>
    intro queue visited result fetched out h1 h2 hout
    cases queue with
    | nil =>
      simp only [crawlLoop] at hout
      obtain rfl : result = out := by simpa using hout
      simpa using h1
    | cons cur rest => simp [crawlLoop] at hout
  | succ f ih =>
    intro queue visited result fetched out h1 h2 hout
    cases queue with
    | nil =>
      simp only [crawlLoop] at hout
      obtain rfl : result = out := by simpa using hout
      simpa using h1
    | cons cur rest =>
      have hperm :
          (rest.map (fun n => n.link.Href) ++ (result ++ [cur.link]).map Link.Href).Perm
            ((cur :: rest).map (fun n => n.link.Href) ++ result.map Link.Href) := by
        simp only [List.map_append, List.map_cons, List.map_nil, List.cons_append]
        rw [← List.append_assoc]
        exact List.perm_append_singleton _ _
      have h1' := hperm.symm.nodup h1
      have h2' : ∀ h ∈ rest.map (fun n => n.link.Href) ++ (result ++ [cur.link]).map Link.Href,
          h ∈ visited := fun h hh => h2 h ((hperm.mem_iff).1 hh)
      simp only [crawlLoop] at hout
      by_cases hd : (cur.depth : Int) ≥ maxDepth
      · rw [if_pos hd] at hout
        exact ih rest visited (result ++ [cur.link]) fetched out h1' h2' hout
      · rw [if_neg hd] at hout
        cases hfe : fetch cur.link.Href with
        | none =>
          simp only [hfe] at hout
          exact ih rest visited (result ++ [cur.link]) _ out h1' h2' hout
        | some doc =>
          simp only [hfe] at hout
          have hinv := enqueueNew_inv cur.depth ((result ++ [cur.link]).map Link.Href)
            (ExtractLinks doc cur.link.Href) rest visited h1' h2'
          exact ih _ _ (result ++ [cur.link]) _ out hinv.1 hinv.2 hout

theorem crawlLoop_result_pre (fetch : String → Option HtmlNode) (maxDepth : Int) :
    ∀ (fuel : Nat) (queue : List CNode) (visited : List String)
      (result : List Link) (fetched : List String) (out : List Link),
    (crawlLoop fetch maxDepth fuel queue visited result fetched).1 = some out →
    ∃ t, out = result ++ t := by
  intro fuel
  induction fuel with
  | zero =>
    intro queue visited result fetched out hout
    cases queue with
    | nil =>
      simp only [crawlLoop] at hout
      exact ⟨[], by simpa using hout.symm⟩
    | cons cur rest => simp [crawlLoop] at hout
  | succ f ih =>
    intro queue visited result fetched out hout
    cases queue with
    | nil =>
      simp only [crawlLoop] at hout
      exact ⟨[], by simpa using hout.symm⟩
    | cons cur rest =>
      simp only [crawlLoop] at hout
      by_cases hd : (cur.depth : Int) ≥ maxDepth
      · rw [if_pos hd] at hout
        obtain ⟨t, ht⟩ := ih _ _ _ _ _ hout
        exact ⟨cur.link :: t, by simp [ht]⟩
      · rw [if_neg hd] at hout
        cases hfe : fetch cur.link.Href with
        | none =>
          simp only [hfe] at hout
          obtain ⟨t, ht⟩ := ih _ _ _ _ _ hout
          exact ⟨cur.link :: t, by simp [ht]⟩
        | some doc =>
          simp only [hfe] at hout
          obtain ⟨t, ht⟩ := ih _ _ _ _ _ hout
          exact ⟨cur.link :: t, by simp [ht]⟩

theorem crawlLoop_log_sub (fetch : String → Option HtmlNode) (maxDepth : Int) :
    ∀ (fuel : Nat) (queue : List CNode) (visited : List String)
      (result : List Link) (fetched : List String) (out : List Link),
    (∀ u ∈ fetched, u ∈ result.map Link.Href) →
    (crawlLoop fetch maxDepth fuel queue visited result fetched).1 = some out →
    ∀ u ∈ (crawlLoop fetch maxDepth fuel queue visited result fetched).2,
      u ∈ out.map Link.Href := by
  intro fuel
  induction fuel with
  | zero =>
    intro queue visited result fetched out hlog hout
    cases queue with
    | nil =>
      simp only [crawlLoop] at hout ⊢
      obtain rfl : result = out := by simpa using hout
      simpa using hlog
    | cons cur rest => simp [crawlLoop] at hout
  | succ f ih =>
    intro queue visited result fetched out hlog hout
    cases queue with
    | nil =>
      simp only [crawlLoop] at hout ⊢
      obtain rfl : result = out := by simpa using hout
      simpa using hlog
    | cons cur rest =>
      have hlog1 : ∀ u ∈ fetched, u ∈ (result ++ [cur.link]).map Link.Href := by
        intro u hu
        simp only [List.map_append, List.mem_append]
        exact Or.inl (hlog u hu)
      have hlog2 : ∀ u ∈ fetched ++ [cur.link.Href],
          u ∈ (result ++ [cur.link]).map Link.Href := by
        intro u hu
        rcases List.mem_append.1 hu with h' | h'
        · exact hlog1 u h'
        · simp only [List.mem_singleton] at h'
          simp [h']
      simp only [crawlLoop] at hout ⊢
      by_cases hd : (cur.depth : Int) ≥ maxDepth
      · rw [if_pos hd] at hout ⊢
        exact ih _ _ _ _ _ hlog1 hout
      · rw [if_neg hd] at hout ⊢
        cases hfe : fetch cur.link.Href with
        | none =>
          simp only [hfe] at hout ⊢
          exact ih _ _ _ _ _ hlog2 hout
        | some doc =>
          simp only [hfe] at hout ⊢
          exact ih _ _ _ _ _ hlog2 hout

/-- Claim C2: for every seed list, depth and fetch behaviour, each href
occurs at most once in the result sequence of `CrawlBFS` (the visited-set
check before every enqueue makes result hrefs pairwise distinct). -/
theorem crawlBFS_result_hrefs_nodup (fetch : String → Option HtmlNode) (links : List Link)
    (maxDepth : Int) (out : List Link)
    (h : CrawlBFS fetch links maxDepth = some out) :
    (out.map Link.Href).Nodup := by
  cases links with
  | nil => simp [CrawlBFS, CrawlBFSTrace] at h
  | cons l0 rest =>
    simp only [CrawlBFS, CrawlBFSTrace] at h
    refine crawlLoop_nodup fetch maxDepth _ _ _ _ _ out ?_ ?_ h
    · simp
    · simp

theorem crawlBFS_result_hrefs_nodup_witness : ((([(⟨"u", ""⟩ : Link)]).map Link.Href).Nodup) :=
  crawlBFS_result_hrefs_nodup (fun _ => none) [⟨"u", ""⟩] 0 [⟨"u", ""⟩] (by decide)

/-- Claim C5: `CrawlBFS` errors exactly on the empty seed list, fetching
nothing in that case; with a non-empty seed every fetch/parse failure is
swallowed (the crawl still returns a result, for every fetch behaviour),
every fetched URL — failed or not — is already appended to the result,
and the first seed link heads the result unconditionally. -/
theorem crawlBFS_error_iff_empty_seed :
    (∀ (fetch : String → Option HtmlNode) (links : List Link) (maxDepth : Int),
       CrawlBFS fetch links maxDepth = none ↔ links = []) ∧
    (∀ (fetch : String → Option HtmlNode) (maxDepth : Int),
       CrawlBFSTrace fetch [] maxDepth = (none, [])) ∧
    (∀ (fetch : String → Option HtmlNode) (links : List Link) (maxDepth : Int)
       (out : List Link), CrawlBFS fetch links maxDepth = some out →
       ∀ u ∈ (CrawlBFSTrace fetch links maxDepth).2, u ∈ out.map Link.Href) ∧
    (∀ (fetch : String → Option HtmlNode) (l0 : Link) (rest : List Link)
       (maxDepth : Int) (out : List Link),
       CrawlBFS fetch (l0 :: rest) maxDepth = some out → out.head? = some l0) := by
  refine ⟨?_, ?_, ?_, ?_⟩
  · intro fetch links maxDepth
    constructor
    · intro h
      cases links with
      | nil => rfl
      | cons l0 rest =>
        have := crawlBFS_cons_isSome fetch l0 rest maxDepth
        rw [h] at this
        simp at this
    · rintro rfl
      rfl
  · intro fetch maxDepth
    rfl
  · intro fetch links maxDepth out h
    cases links with
    | nil =>
      intro u hu
      simp [CrawlBFSTrace] at hu
    | cons l0 rest =>
      simp only [CrawlBFS, CrawlBFSTrace] at h ⊢
      exact crawlLoop_log_sub fetch maxDepth _ _ _ _ _ out (by simp) h
  · intro fetch l0 rest maxDepth out h
    simp only [CrawlBFS, CrawlBFSTrace] at h
    have hpos := iterBound_pos fetch maxDepth.toNat l0
    rcases hF : iterBound fetch maxDepth.toNat l0 with _ | f
    · omega
    · rw [hF] at h
      simp only [crawlLoop] at h
      by_cases hd : (((CNode.mk l0 0).depth : Nat) : Int) ≥ maxDepth
      · rw [if_pos hd] at h
        simp only [Prod.fst] at h
        obtain rfl : ([] : List Link) ++ [l0] = out := by simpa using h
        simp
      · rw [if_neg hd] at h
        cases hfe : fetch (CNode.mk l0 0).link.Href with
        | none =>
          simp only [hfe] at h
          obtain rfl : ([] : List Link) ++ [l0] = out := by simpa using h
          simp
        | some doc =>
          simp only [hfe] at h
          obtain ⟨t, ht⟩ := crawlLoop_result_pre fetch maxDepth _ _ _ _ _ _ h
          simp [ht]

theorem crawlBFS_error_iff_empty_seed_witness :
    CrawlBFS (fun _ => none) ([] : List Link) 0 = none ∧
    ([(⟨"u", ""⟩ : Link)] : List Link).head? = some ⟨"u", ""⟩ :=
  ⟨(crawlBFS_error_iff_empty_seed.1 (fun _ => none) [] 0).2 rfl,
   crawlBFS_error_iff_empty_seed.2.2.2 (fun _ => none) ⟨"u", ""⟩ [] 0 [⟨"u", ""⟩] (by decide)⟩

theorem goSplit_not_mem (c : Char) (cutc : Bool) :
    ∀ s : List Char, c ∉ s → goSplit s c cutc = (s, []) := by
  intro s
  induction s with
  | nil => intro h; rfl
  | cons d ds ih =>
    intro h
    have hd : ¬ (d = c) := fun hc => h (by simp [hc])
    have hds : c ∉ ds := fun hc => h (by simp [hc])
    simp [goSplit, hd, ih hds]

theorem slashx_mem (k : Nat) :
    ∀ c ∈ ('/' :: List.replicate k 'x' : List Char), c = '/' ∨ c = 'x' := by
  intro c hc
  rcases List.mem_cons.1 hc with h | h
  · exact Or.inl h
  · exact Or.inr (List.eq_of_mem_replicate h)

theorem splitAll_replicate_x (m : Nat) :
    splitAll '/' (List.replicate m 'x') = [List.replicate m 'x'] := by
  induction m with
  | zero => rfl
  | succ m ih => simp [List.replicate_succ, splitAll, ih]

theorem replicate_x_ne_dot (m : Nat) :
    List.replicate (m + 1) 'x' ≠ ['.'] ∧ List.replicate (m + 1) 'x' ≠ ['.', '.'] := by
  refine ⟨?_, ?_⟩ <;> · rw [List.replicate_succ]; simp

theorem resolvePath_slashx (b : List Char) (j : Nat) :
    resolvePath b ('/' :: List.replicate (j + 1) 'x') = '/' :: List.replicate (j + 1) 'x' := by
  simp [resolvePath, splitAll, splitAll_replicate_x, resolvePathStep,
    joinSep, trimLeadSlash, List.replicate_succ]

theorem hasPrefL_slash (r : List Char) : hasPrefL ('/' :: r) ['/'] = true := by
  simp [hasPrefL, List.isPrefixOf]

theorem hasPrefL_slashx_two (m : Nat) :
    hasPrefL ('/' :: List.replicate (m + 1) 'x') ['/', '/'] = false := by
  rw [List.replicate_succ]
  simp [hasPrefL, List.isPrefixOf]

theorem hasPrefL_slashx_three (m : Nat) :
    hasPrefL ('/' :: List.replicate (m + 1) 'x') ['/', '/', '/'] = false := by
  rw [List.replicate_succ]
  simp [hasPrefL, List.isPrefixOf]

theorem parse_slashx (k : Nat) :
    parseURLFull ('/' :: List.replicate (k + 1) 'x')
      = some ⟨[], [], [], '/' :: List.replicate (k + 1) 'x', false, [], [], false⟩ := by
  have hmem := slashx_mem (k + 1)
  have hnohash : ('#' : Char) ∉ ('/' :: List.replicate (k + 1) 'x' : List Char) := by
    intro hc
    rcases hmem '#' hc with h | h <;> simp at h
  have hnoq : ('?' : Char) ∉ ('/' :: List.replicate (k + 1) 'x' : List Char) := by
    intro hc
    rcases hmem '?' hc with h | h <;> simp at h
  have hgs : getScheme ('/' :: List.replicate (k + 1) 'x') =
      some ([], '/' :: List.replicate (k + 1) 'x') := by
    simp [getScheme, getSchemeAux, charIsAlpha, charIsSchemeExtra]
  have hsuf : hasSuffL ('/' :: List.replicate (k + 1) 'x') ['?'] = false := by
    rw [hasSuffL]
    cases h : List.isSuffixOf ['?'] ('/' :: List.replicate (k + 1) 'x') with
    | false => rfl
    | true =>
      exfalso
      have hs : ['?'].reverse <+: ('/' :: List.replicate (k + 1) 'x' : List Char).reverse :=
        List.isPrefixOf_iff_prefix.1 (by simpa [List.isSuffixOf] using h)
      have : ('?' : Char) ∈ ('/' :: List.replicate (k + 1) 'x' : List Char).reverse :=
        hs.subset (by simp)
      rw [List.mem_reverse] at this
      exact hnoq this
  simp [parseURLFull, parseNoFrag, parseAfterQuery, hgs, hsuf,
    goSplit_not_mem '#' true _ hnohash, goSplit_not_mem '?' true _ hnoq,
    hasPrefL_slash, hasPrefL_slashx_two, hasPrefL_slashx_three]

theorem resolveURL_pagePath (i j : Nat) :
    resolveURL (pagePath i) (pagePath j) = pagePath j := by
  have hi := parse_slashx i
  have hj := parse_slashx j
  have hres : resolveReference
      ⟨[], [], [], '/' :: List.replicate (i + 1) 'x', false, [], [], false⟩
      ⟨[], [], [], '/' :: List.replicate (j + 1) 'x', false, [], [], false⟩
      = ⟨[], [], [], '/' :: List.replicate (j + 1) 'x', false, [], [], false⟩ := by
    simp [resolveReference, resolvePath_slashx]
  have hstr : urlToString ⟨[], [], [], '/' :: List.replicate (j + 1) 'x', false, [], [], false⟩
      = '/' :: List.replicate (j + 1) 'x' := by
    simp [urlToString, goSplit, containsChar]
  simp [resolveURL,
    show (pagePath j).data = '/' :: List.replicate (j + 1) 'x' from rfl,
    show (pagePath i).data = '/' :: List.replicate (i + 1) 'x' from rfl,
    hj, hi, hres, hstr, pagePath]

theorem pagePath_inj {i j : Nat} (h : pagePath i = pagePath j) : i = j := by
  have hdata : '/' :: List.replicate (i + 1) 'x' = '/' :: List.replicate (j + 1) 'x' :=
    congrArg String.data h
  have := congrArg List.length hdata
  simpa using this

theorem extractLinks_cycDoc (N i : Nat) :
    ExtractLinks (cycDoc N i) (pagePath i) = [cycLink ((i + 1) % N)] := by
  have hresolve := resolveURL_pagePath i ((i + 1) % N)
  simp only [pagePath] at hresolve
  simp [ExtractLinks, cycDoc, walkNode, walkList, anchorStep, findInternalHref,
    isInternalLink, hasPrefS, cycLink, hresolve, extractText, extractTextCat,
    normalizeWS, splitWS, joinSep, trimSpace, stringMk_nil, pagePath, List.isPrefixOf]

theorem cycFetch_eq (N i : Nat) (h : i < N) :
    cycFetch N (pagePath i) = some (cycDoc N i) := by
  have hlen : (pagePath i).data.length = i + 2 := by simp [pagePath]
  simp [cycFetch, hlen, h]

theorem iterBound_cyc (N : Nat) (hN : 0 < N) :
    ∀ (r i : Nat), i < N → iterBound (cycFetch N) r (cycLink i) = r + 1 := by
  intro r
  induction r with
  | zero => intro i h; rfl
  | succ r ih =>
    intro i h
    have hf := cycFetch_eq N i h
    have hrec := ih ((i + 1) % N) (Nat.mod_lt _ hN)
    simp only [cycLink] at hrec
    simp [iterBound, hf, cycLink, extractLinks_cycDoc, hrec]
    exact Nat.add_comm 1 (r + 1)

theorem pagePath_mem_range_iff (m c : Nat) :
    pagePath m ∈ (List.range c).map pagePath ↔ m < c := by
  constructor
  · intro h
    obtain ⟨a, ha, he⟩ := List.mem_map.1 h
    rw [← pagePath_inj he]
    exact List.mem_range.1 ha
  · intro h
    exact List.mem_map.2 ⟨m, List.mem_range.2 h, rfl⟩

theorem cyc_run (N k : Nat) (hN : 0 < N) :
    ∀ (fuel j : Nat) (res : List Link) (log : List String), j < N → j ≤ k →
    min N (k + 1) - j ≤ fuel →
    ∃ log2, crawlLoop (cycFetch N) (k : Int) fuel [⟨cycLink j, j⟩]
        ((List.range (j + 1)).map pagePath) res log
      = (some (res ++ (List.range' j (min N (k + 1) - j)).map cycLink), log2) := by
  intro fuel
  induction fuel with
  | zero =>
    intro j res log hjN hjk hfuel
    exact absurd hfuel (by omega)
  | succ f ih =>
    intro j res log hjN hjk hfuel
    have hlt : j < min N (k + 1) := by omega
    simp only [crawlLoop]
    by_cases hd : ((j : Nat) : Int) ≥ (k : Int)
    · have hjk' : j = k := by
        have := Int.ofNat_le.1 hd
        omega
      rw [if_pos hd]
      refine ⟨log, ?_⟩
      have hmin : min N (k + 1) - j = 1 := by omega
      rw [hmin]
      simp [List.range'_succ, cycLink, hjk']
    · have hjklt : j < k := by
        have : ¬ ((k : Int) ≤ (j : Nat)) := hd
        omega
      rw [if_neg hd]
      have hf : cycFetch N (CNode.mk (cycLink j) j).link.Href = some (cycDoc N j) :=
        cycFetch_eq N j hjN
      rw [hf]
      simp only []
      have hext : ExtractLinks (cycDoc N j) (CNode.mk (cycLink j) j).link.Href
          = [cycLink ((j + 1) % N)] := extractLinks_cycDoc N j
      rw [hext]
      by_cases hwrap : j + 1 < N
      · have hmod : (j + 1) % N = j + 1 := Nat.mod_eq_of_lt hwrap
        have hnotmem : (cycLink ((j + 1) % N)).Href ∉ (List.range (j + 1)).map pagePath := by
          rw [hmod]
          intro hc
          have := (pagePath_mem_range_iff (j + 1) (j + 1)).1 hc
          omega
        obtain ⟨log2, hrun⟩ := ih (j + 1) (res ++ [cycLink j])
          (log ++ [(cycLink j).Href]) hwrap (by omega) (by omega)
        refine ⟨log2, ?_⟩
        have hrange : (List.range' j (min N (k + 1) - j)).map cycLink
            = cycLink j :: (List.range' (j + 1) (min N (k + 1) - (j + 1))).map cycLink := by
          have h1 : min N (k + 1) - j = (min N (k + 1) - (j + 1)) + 1 := by omega
          rw [h1, List.range'_succ]
          simp
        simp only [enqueueNew, if_neg hnotmem]
        rw [hrange]
        simpa [hmod, cycLink, List.range_succ, List.append_assoc] using hrun
      · have hj1 : j + 1 = N := by omega
        have hmod : (j + 1) % N = 0 := by
          rw [hj1]
          exact Nat.mod_self N
        have hmem : (cycLink ((j + 1) % N)).Href ∈ (List.range (j + 1)).map pagePath := by
          rw [hmod]
          exact (pagePath_mem_range_iff 0 (j + 1)).2 (by omega)
        simp only [enqueueNew, if_pos hmem]
        refine ⟨log ++ [(CNode.mk (cycLink j) j).link.Href], ?_⟩
        simp only [crawlLoop]
        have hmin : min N (k + 1) - j = 1 := by omega
        rw [hmin]
        simp [List.range'_succ]

/-- Claim C1: `CrawlBFS` terminates on every input (the loop fuel chosen
from `iterBound` always suffices, so a non-empty seed always yields a
result), and on the synthetic cycle of `N` pages each linking to the
next, a crawl with `maxDepth = k` appends at most `min N (k+1)` pages to
the result, all distinct. -/
theorem crawlBFS_terminates_and_cycle_bound :
    (∀ (fetch : String → Option HtmlNode) (links : List Link) (maxDepth : Int),
       links ≠ [] → (CrawlBFS fetch links maxDepth).isSome = true) ∧
    (∀ N k : Nat, 0 < N →
       ∃ out, CrawlBFS (cycFetch N) [cycLink 0] (k : Int) = some out ∧
         out.length ≤ min N (k + 1) ∧ (out.map Link.Href).Nodup) := by
  constructor
  · intro fetch links maxDepth h
    cases links with
    | nil => exact absurd rfl h
    | cons l0 rest => exact crawlBFS_cons_isSome fetch l0 rest maxDepth
  · intro N k hN
    have hfuel : iterBound (cycFetch N) ((k : Int)).toNat (cycLink 0) = k + 1 := by
      rw [Int.toNat_natCast]
      exact iterBound_cyc N hN k 0 hN
    obtain ⟨log2, hrun⟩ := cyc_run N k hN (k + 1) 0 [] [] hN (by omega) (by omega)
    refine ⟨(List.range' 0 (min N (k + 1))).map cycLink, ?_, ?_, ?_⟩
    · simp only [CrawlBFS, CrawlBFSTrace, hfuel]
      have hvis : [(cycLink 0).Href] = (List.range (0 + 1)).map pagePath := by
        simp [cycLink, List.range_succ]
      rw [hvis]
      rw [hrun]
      simp
    · simp [List.length_range']
    · rw [List.map_map]
      have : (Link.Href ∘ cycLink) = pagePath := by
        funext m
        rfl
      rw [this]
      exact List.Nodup.map (fun a b h => pagePath_inj h)
        (List.nodup_range' 0 (min N (k + 1)) 1 (by norm_num))

theorem crawlBFS_terminates_and_cycle_bound_witness :
    (CrawlBFS (fun _ => none) [⟨"/a", ""⟩] 3).isSome = true ∧
    (∃ out, CrawlBFS (cycFetch 3) [cycLink 0] ((1 : Nat) : Int) = some out ∧
       out.length ≤ min 3 (1 + 1) ∧ (out.map Link.Href).Nodup) :=
  ⟨crawlBFS_terminates_and_cycle_bound.1 (fun _ => none) [⟨"/a", ""⟩] 3 (by simp),
   crawlBFS_terminates_and_cycle_bound.2 3 1 (by omega)⟩
